import Mathlib

/-!
Verification of the chunked fold combinator (`fold_chunks`) of the rayon
repository, file `src/iter/fold_chunks.rs`.

The base `Producer` is modelled as a Lean `List α`: the producer contract
(split at an element index into two owned fragments, convert into an
iterator over the elements) becomes `List.take`/`List.drop` and folding
over the list.  Machine integers (`usize`) are modelled as `Nat`; the
arithmetic here never overflows in the claims' domain.
-/

namespace FoldChunksModel

/-- Modelled from the spec: `crate::math::div_round_up` is outside `src/`;
the spec (§4.1 Boundary Mapper) states the logical chunk count is the
ceiling division ⌈L / K⌉. -/
def div_round_up (n divisor : Nat) : Nat :=
  (n + divisor - 1) / divisor

/-- The user-facing combinator `FoldChunks` (fold_chunks.rs lines 17-25):
base sequence, chunk size, fold function and identity factory. -/
structure FoldChunks (α β : Type) where
  base : List α
  chunk_size : Nat
  fold_op : β → α → β
  identity : Unit → β

/-- `FoldChunks::len` (fold_chunks.rs lines 82-84). -/
def FoldChunks.len {α β : Type} (fc : FoldChunks α β) : Nat :=
  div_round_up fc.base.length fc.chunk_size

/-- `FoldChunksProducer` (fold_chunks.rs lines 138-147): the base producer
is a list fragment, `len` is the remaining logical element count. -/
structure FoldChunksProducer (α β : Type) where
  chunk_size : Nat
  len : Nat
  identity : Unit → β
  fold_op : β → α → β
  base : List α

/-- The wrapping performed by `FoldChunks::with_producer`
(fold_chunks.rs lines 93-135): the base sequence's producer (the list
itself) is wrapped into a `FoldChunksProducer` carrying the full element
length and references to the identity factory and fold function. -/
def FoldChunks.producer {α β : Type} (fc : FoldChunks α β) :
    FoldChunksProducer α β :=
  { chunk_size := fc.chunk_size
    len := fc.base.length
    identity := fc.identity
    fold_op := fc.fold_op
    base := fc.base }

/-- `FoldChunksSeq` (fold_chunks.rs lines 198-204): the sequential cursor;
`inner` is the optional owned base producer fragment. -/
structure FoldChunksSeq (α β : Type) where
  chunk_size : Nat
  len : Nat
  identity : Unit → β
  fold_op : β → α → β
  inner : Option (List α)

/-- `FoldChunksProducer::into_iter` (fold_chunks.rs lines 158-166). -/
def FoldChunksProducer.into_iter {α β : Type} (p : FoldChunksProducer α β) :
    FoldChunksSeq α β :=
  { chunk_size := p.chunk_size
    len := p.len
    identity := p.identity
    fold_op := p.fold_op
    inner := if p.len > 0 then some p.base else none }

/-- `FoldChunksProducer::min_len` (fold_chunks.rs lines 168-170); the base
producer's own minimum granularity is a parameter of the model. -/
def FoldChunksProducer.min_len {α β : Type} (p : FoldChunksProducer α β)
    (base_min_len : Nat) : Nat :=
  div_round_up base_min_len p.chunk_size

/-- `FoldChunksProducer::max_len` (fold_chunks.rs lines 172-174). -/
def FoldChunksProducer.max_len {α β : Type} (p : FoldChunksProducer α β)
    (base_max_len : Nat) : Nat :=
  base_max_len / p.chunk_size

/-- `FoldChunksProducer::split_at` (fold_chunks.rs lines 176-195); the base
producer's `split_at` at element index `e` is `take e` / `drop e`. -/
def FoldChunksProducer.split_at {α β : Type} (p : FoldChunksProducer α β)
    (index : Nat) : FoldChunksProducer α β × FoldChunksProducer α β :=
  let elem_index := min (index * p.chunk_size) p.len
  ({ chunk_size := p.chunk_size
     len := elem_index
     identity := p.identity
     fold_op := p.fold_op
     base := p.base.take elem_index },
   { chunk_size := p.chunk_size
     len := p.len - elem_index
     identity := p.identity
     fold_op := p.fold_op
     base := p.base.drop elem_index })

/-- `FoldChunksSeq::next` (fold_chunks.rs lines 214-228), returning the
yielded value together with the successor cursor state. -/
def FoldChunksSeq.next {α β : Type} (s : FoldChunksSeq α β) :
    Option β × FoldChunksSeq α β :=
  match s.inner with
  | none => (none, s)
  | some producer =>
    if s.len > s.chunk_size then
      let left := producer.take s.chunk_size
      let right := producer.drop s.chunk_size
      (some (left.foldl s.fold_op (s.identity ())),
       { s with inner := some right, len := s.len - s.chunk_size })
    else
      (some (producer.foldl s.fold_op (s.identity ())),
       { s with inner := none, len := 0 })

/-- `FoldChunksSeq::len` from the `ExactSizeIterator` impl
(fold_chunks.rs lines 242-246). -/
def FoldChunksSeq.seqLen {α β : Type} (s : FoldChunksSeq α β) : Nat :=
  div_round_up s.len s.chunk_size

/-- `FoldChunksSeq::next_back` (fold_chunks.rs lines 254-272). -/
def FoldChunksSeq.next_back {α β : Type} (s : FoldChunksSeq α β) :
    Option β × FoldChunksSeq α β :=
  match s.inner with
  | none => (none, s)
  | some producer =>
    if s.len > s.chunk_size then
      let size0 := s.len % s.chunk_size
      let size := if size0 = 0 then s.chunk_size else size0
      let left := producer.take (s.len - size)
      let right := producer.drop (s.len - size)
      (some (right.foldl s.fold_op (s.identity ())),
       { s with inner := some left, len := s.len - size })
    else
      (some (producer.foldl s.fold_op (s.identity ())),
       { s with inner := none, len := 0 })

/-- Repeated forward extraction from the cursor: drives `next` until it
signals end-of-sequence, with a fuel bound for termination. -/
def runForward {α β : Type} : Nat → FoldChunksSeq α β → List β
  | 0, _ => []
  | fuel + 1, s =>
    match s.next with
    | (none, _) => []
    | (some v, s') => v :: runForward fuel s'

/-- Repeated backward extraction from the cursor via `next_back`. -/
def runBackward {α β : Type} : Nat → FoldChunksSeq α β → List β
  | 0, _ => []
  | fuel + 1, s =>
    match s.next_back with
    | (none, _) => []
    | (some v, s') => v :: runBackward fuel s'

/-- A split strategy chosen by the external engine: either run a fragment
sequentially (leaf) or split it at a logical chunk index and recurse. -/
inductive SplitTree : Type where
  | leaf : SplitTree
  | node : Nat → SplitTree → SplitTree → SplitTree

/-- Execution of a producer fragment under a split strategy: at a node the
producer is split with `split_at` and the two halves' outputs are
concatenated in order; at a leaf the fragment is consumed sequentially
(forward) through its cursor. -/
def execute {α β : Type} : SplitTree → FoldChunksProducer α β → List β
  | .leaf, p => runForward (p.len + 1) p.into_iter
  | .node i l r, p =>
    let halves := p.split_at i
    execute l halves.1 ++ execute r halves.2

/-- Execution traversing the outputs in reverse: at a node the right
half's (reversed) output comes first; at a leaf the cursor is consumed
backward via `next_back`. -/
def executeBack {α β : Type} : SplitTree → FoldChunksProducer α β → List β
  | .leaf, p => runBackward (p.len + 1) p.into_iter
  | .node i l r, p =>
    let halves := p.split_at i
    executeBack r halves.2 ++ executeBack l halves.1

/-- The partition of a list into contiguous chunks of size `K` (the last
chunk possibly shorter), the specification-side description of the chunk
boundaries. -/
def chunksOf {α : Type} (K : Nat) (l : List α) : List (List α) :=
  if _h : K = 0 ∨ l.length = 0 then []
  else l.take K :: chunksOf K (l.drop K)
termination_by l.length
decreasing_by
  simp only [List.length_drop]
  push_neg at _h
  exact Nat.sub_lt (Nat.pos_of_ne_zero _h.2) (Nat.pos_of_ne_zero _h.1)

/-- The folded value of one chunk: a left-fold seeded with a fresh value
from the identity factory. -/
def foldChunk {α β : Type} (identity : Unit → β) (fold_op : β → α → β)
    (c : List α) : β :=
  c.foldl fold_op (identity ())

/-- The specification-side output: one folded value per chunk, in order. -/
def specOutput {α β : Type} (K : Nat) (identity : Unit → β)
    (fold_op : β → α → β) (l : List α) : List β :=
  (chunksOf K l).map (foldChunk identity fold_op)

/-- Modelled from the spec: the combinator's execution entry point
(`fold_chunks()` on `IndexedParallelIterator`, outside `src/`) validates
the chunk size before any folding, failing with an error that names the
offending parameter (§7; the test at fold_chunks.rs line 307 expects the
message "chunk_size must not be zero"). -/
def fold_chunks {α β : Type} (base : List α) (chunk_size : Nat)
    (identity : Unit → β) (fold_op : β → α → β) : Except String (List β) :=
  if chunk_size = 0 then Except.error "chunk_size must not be zero"
  else Except.ok (specOutput chunk_size identity fold_op base)

/-- The size of the chunk emitted by the first backward extraction when
more than one chunk remains (fold_chunks.rs lines 257-260). -/
def backSize (len K : Nat) : Nat :=
  if len % K = 0 then K else len % K

/-- The cursor's state invariant: the held fragment's element count is the
recorded remaining count, and a fragment is held only while it is
non-empty. -/
def Valid {α β : Type} (s : FoldChunksSeq α β) : Prop :=
  (∀ l : List α, s.inner = some l → s.len = l.length ∧ 0 < s.len) ∧
  (s.inner = none → s.len = 0)

/-- The elements still held by the cursor. -/
def contents {α β : Type} (s : FoldChunksSeq α β) : List α :=
  s.inner.getD []

/-- A sample combinator instance (8 elements, chunk size 3) used to
exercise the theorems on concrete data. -/
def sampleFC : FoldChunks Nat Nat :=
  { base := [0, 1, 2, 3, 4, 5, 6, 7]
    chunk_size := 3
    fold_op := fun a b => a + b
    identity := fun _ => 0 }

/-- A sample producer fragment (5 elements, chunk size 3). -/
def sampleProducer : FoldChunksProducer Nat Nat :=
  { chunk_size := 3
    len := 5
    identity := fun _ => 0
    fold_op := fun a b => a + b
    base := [0, 1, 2, 3, 4] }

/-- A sample cursor holding 5 elements with chunk size 3. -/
def sampleSeq : FoldChunksSeq Nat Nat :=
  { chunk_size := 3
    len := 5
    identity := fun _ => 0
    fold_op := fun a b => a + b
    inner := some [0, 1, 2, 3, 4] }

/-- A second sample cursor (4 elements, chunk size 2), exercised backward. -/
def sampleSeq2 : FoldChunksSeq Nat Nat :=
  { chunk_size := 2
    len := 4
    identity := fun _ => 0
    fold_op := fun a b => a + b
    inner := some [1, 2, 3, 4] }

/-! Arithmetic facts about the Boundary Mapper's ceiling division. -/

lemma dru_of_mod_eq_zero {n K : Nat} (hK : 0 < K) (h : n % K = 0) :
    div_round_up n K = n / K := by
  obtain ⟨q, rfl⟩ : K ∣ n := Nat.dvd_of_mod_eq_zero h
  unfold div_round_up
  have h1 : K * q + K - 1 = K * q + (K - 1) := by omega
  rw [h1, Nat.mul_add_div hK, Nat.div_eq_of_lt (by omega),
    Nat.mul_div_cancel_left q hK]
  rfl

lemma dru_of_mod_ne_zero {n K : Nat} (hK : 0 < K) (h : n % K ≠ 0) :
    div_round_up n K = n / K + 1 := by
  have hd := Nat.div_add_mod n K
  have hr : n % K < K := Nat.mod_lt _ hK
  have hx : K * (n / K + 1) = K * (n / K) + K := by ring
  unfold div_round_up
  have h1 : n + K - 1 = K * (n / K + 1) + (n % K - 1) := by omega
  have h2 : (n % K - 1) / K = 0 := Nat.div_eq_of_lt (by omega)
  rw [h1, Nat.mul_add_div hK, h2]

lemma dru_zero (K : Nat) : div_round_up 0 K = 0 := by
  unfold div_round_up
  rcases Nat.eq_zero_or_pos K with rfl | hK
  · rfl
  · exact Nat.div_eq_of_lt (by omega)

lemma dru_le_iff {n K d : Nat} (hK : 0 < K) :
    div_round_up n K ≤ d ↔ n ≤ K * d := by
  by_cases h : n % K = 0
  · rw [dru_of_mod_eq_zero hK h]
    obtain ⟨q, rfl⟩ : K ∣ n := Nat.dvd_of_mod_eq_zero h
    rw [Nat.mul_div_cancel_left q hK]
    exact ⟨fun hq => Nat.mul_le_mul (Nat.le_refl K) hq,
      fun hq => Nat.le_of_mul_le_mul_left hq hK⟩
  · rw [dru_of_mod_ne_zero hK h]
    have hd := Nat.div_add_mod n K
    have hr : n % K < K := Nat.mod_lt _ hK
    constructor
    · intro hq
      calc n = K * (n / K) + n % K := hd.symm
        _ ≤ K * (n / K) + K := by omega
        _ = K * (n / K + 1) := by ring
        _ ≤ K * d := Nat.mul_le_mul (Nat.le_refl K) hq
    · intro hq
      have h1 : K * (n / K) < K * d := by omega
      have h2 := Nat.lt_of_mul_lt_mul_left h1
      omega

lemma dru_pos {n K : Nat} (hK : 0 < K) (hn : 0 < n) :
    0 < div_round_up n K := by
  by_contra h
  have h1 : div_round_up n K ≤ 0 := by omega
  have h2 := (dru_le_iff hK).mp h1
  omega

lemma dru_eq_one {n K : Nat} (hK : 0 < K) (h1 : 0 < n) (h2 : n ≤ K) :
    div_round_up n K = 1 := by
  by_cases h : n % K = 0
  · have hdvd : K ∣ n := Nat.dvd_of_mod_eq_zero h
    have hKn : K ≤ n := Nat.le_of_dvd h1 hdvd
    have hnK : n = K := by omega
    rw [dru_of_mod_eq_zero hK h, hnK, Nat.div_self hK]
  · have hlt : n < K := by
      rcases Nat.lt_or_ge n K with h3 | h3
      · exact h3
      · have hnK : n = K := by omega
        subst hnK
        exact absurd (Nat.mod_self n) h
    rw [dru_of_mod_ne_zero hK h, Nat.div_eq_of_lt hlt]

lemma dru_sub_chunk {n K : Nat} (hK : 0 < K) (h : K ≤ n) :
    div_round_up (n - K) K = div_round_up n K - 1 := by
  obtain ⟨m, rfl⟩ : ∃ m, n = m + K := ⟨n - K, by omega⟩
  rw [Nat.add_sub_cancel]
  by_cases hm : m % K = 0
  · have hn : (m + K) % K = 0 := by rw [Nat.add_mod_right]; exact hm
    rw [dru_of_mod_eq_zero hK hm, dru_of_mod_eq_zero hK hn,
      Nat.add_div_right _ hK]
    rfl
  · have hn : (m + K) % K ≠ 0 := by rw [Nat.add_mod_right]; exact hm
    rw [dru_of_mod_ne_zero hK hm, dru_of_mod_ne_zero hK hn,
      Nat.add_div_right _ hK]
    rfl

lemma dru_sub_mod {n K : Nat} (hK : 0 < K) (h : n % K ≠ 0) :
    div_round_up (n - n % K) K = div_round_up n K - 1 := by
  have hd := Nat.div_add_mod n K
  have hsub : n - n % K = K * (n / K) := by omega
  have hmod : (n - n % K) % K = 0 := by
    rw [hsub]; exact Nat.mul_mod_right K _
  rw [dru_of_mod_eq_zero hK hmod, hsub, Nat.mul_div_cancel_left _ hK,
    dru_of_mod_ne_zero hK h]
  rfl

lemma dru_eq_rat_ceil {L K : Nat} (hK : 0 < K) :
    (div_round_up L K : ℤ) = ⌈(L : ℚ) / (K : ℚ)⌉ := by
  have hle : ∀ d, div_round_up L K ≤ d ↔ L ≤ K * d := fun d => dru_le_iff hK
  have hKQ : (0 : ℚ) < (K : ℚ) := by positivity
  refine le_antisymm ?_ (Int.ceil_le.mpr ?_)
  · rcases Nat.eq_zero_or_pos (div_round_up L K) with h0 | hpos
    · rw [h0]
      simp only [Nat.cast_zero]
      exact Int.ceil_nonneg (by positivity)
    · have hlt : K * (div_round_up L K - 1) < L := by
        by_contra hc
        push_neg at hc
        have := (hle (div_round_up L K - 1)).mpr hc
        omega
      have h2 : ((div_round_up L K : ℤ) - 1 : ℤ) < ⌈(L : ℚ) / (K : ℚ)⌉ := by
        rw [Int.lt_ceil, lt_div_iff₀ hKQ]
        push_cast
        have hcast : ((div_round_up L K : ℚ) - 1) * (K : ℚ) =
            (K : ℚ) * ((div_round_up L K : ℚ) - 1) := by ring
        rw [hcast]
        have hc2 : ((K * (div_round_up L K - 1) : ℕ) : ℚ) < (L : ℚ) := by
          exact_mod_cast hlt
        push_cast [Nat.cast_sub hpos] at hc2
        linarith
      omega
  · rw [div_le_iff₀ hKQ]
    push_cast
    have hL : L ≤ K * div_round_up L K := (hle _).mp le_rfl
    have hc3 : ((L : ℕ) : ℚ) ≤ ((K * div_round_up L K : ℕ) : ℚ) := by
      exact_mod_cast hL
    push_cast at hc3
    linarith

/-! Equations and structural facts about the chunk partition. -/

lemma chunksOf_nil (K : Nat) {α : Type} : chunksOf K ([] : List α) = [] := by
  unfold chunksOf
  simp

lemma chunksOf_cons_eq {α : Type} {K : Nat} (hK : K ≠ 0) {l : List α}
    (hl : l ≠ []) : chunksOf K l = l.take K :: chunksOf K (l.drop K) := by
  rw [chunksOf]
  rw [dif_neg]
  push_neg
  have := List.length_pos.mpr hl
  exact ⟨hK, by omega⟩

lemma chunksOf_short {α : Type} {K : Nat} (hK : K ≠ 0) {l : List α}
    (hl : l ≠ []) (h : l.length ≤ K) : chunksOf K l = [l] := by
  rw [chunksOf_cons_eq hK hl, List.take_of_length_le h,
    List.drop_eq_nil_of_le h, chunksOf_nil]

lemma chunksOf_flatten {α : Type} {K : Nat} (hK : 0 < K) (l : List α) :
    (chunksOf K l).flatten = l := by
  suffices h : ∀ n (l : List α), l.length ≤ n → (chunksOf K l).flatten = l from
    h l.length l le_rfl
  intro n
  induction n with
  | zero =>
    intro l hl
    rw [List.length_eq_zero.mp (Nat.le_zero.mp hl), chunksOf_nil]
    rfl
  | succ n ih =>
    intro l hl
    rcases eq_or_ne l [] with rfl | hne
    · rw [chunksOf_nil]; rfl
    · rw [chunksOf_cons_eq (by omega) hne, List.flatten_cons,
        ih (l.drop K) (by rw [List.length_drop]; omega),
        List.take_append_drop]

lemma chunksOf_length {α : Type} {K : Nat} (hK : 0 < K) (l : List α) :
    (chunksOf K l).length = div_round_up l.length K := by
  suffices h : ∀ n (l : List α), l.length ≤ n →
      (chunksOf K l).length = div_round_up l.length K from h l.length l le_rfl
  intro n
  induction n with
  | zero =>
    intro l hl
    rw [List.length_eq_zero.mp (Nat.le_zero.mp hl), chunksOf_nil]
    simp [dru_zero]
  | succ n ih =>
    intro l hl
    rcases eq_or_ne l [] with rfl | hne
    · rw [chunksOf_nil]; simp [dru_zero]
    · rcases le_or_lt l.length K with hle | hgt
      · rw [chunksOf_short (by omega) hne hle,
          dru_eq_one hK (List.length_pos.mpr hne) hle]
        rfl
      · rw [chunksOf_cons_eq (by omega) hne, List.length_cons,
          ih (l.drop K) (by rw [List.length_drop]; omega),
          List.length_drop, dru_sub_chunk hK (by omega)]
        have := dru_pos hK (List.length_pos.mpr hne)
        omega

lemma chunksOf_take_drop {α : Type} {K : Nat} (hK : 0 < K) :
    ∀ (j : Nat) (l : List α),
      chunksOf K l = chunksOf K (l.take (K * j)) ++ chunksOf K (l.drop (K * j)) := by
  intro j
  induction j with
  | zero =>
    intro l
    simp [chunksOf_nil]
  | succ j ih =>
    intro l
    rcases eq_or_ne l [] with rfl | hne
    · simp [chunksOf_nil]
    · rcases le_or_lt l.length (K * (j + 1)) with hle | hgt
      · rw [List.take_of_length_le hle, List.drop_eq_nil_of_le hle, chunksOf_nil,
          List.append_nil]
      · have hKle : K ≤ K * (j + 1) := Nat.le_mul_of_pos_right K (by omega)
        have hKl : K ≤ l.length := by omega
        have hKj : K * (j + 1) = K + K * j := by ring
        have hlen : (l.take K).length = K := List.length_take_of_le hKl
        rw [chunksOf_cons_eq (by omega) hne, hKj, List.take_add,
          ← List.drop_drop]
        have htk : l.take K ≠ [] := by
          intro hc
          rw [hc] at hlen
          simp at hlen
          omega
        have htake : (l.take K ++ (l.drop K).take (K * j)) ≠ [] := by
          simp [htk]
        rw [chunksOf_cons_eq (by omega) htake, List.take_append_eq_append_take,
          hlen, Nat.sub_self, List.take_zero, List.append_nil, List.take_take,
          Nat.min_self, List.drop_append_eq_append_drop, hlen, Nat.sub_self,
          List.drop_zero, List.drop_eq_nil_of_le (le_of_eq hlen),
          List.nil_append]
        exact congrArg (List.cons (l.take K)) (ih (l.drop K))

lemma chunksOf_dropLast {α : Type} {K : Nat} (hK : 0 < K) (l : List α) :
    ∀ c ∈ (chunksOf K l).dropLast, c.length = K := by
  suffices h : ∀ n (l : List α), l.length ≤ n →
      ∀ c ∈ (chunksOf K l).dropLast, c.length = K from h l.length l le_rfl
  intro n
  induction n with
  | zero =>
    intro l hl c hc
    rw [List.length_eq_zero.mp (Nat.le_zero.mp hl), chunksOf_nil] at hc
    simp at hc
  | succ n ih =>
    intro l hl c hc
    rcases eq_or_ne l [] with rfl | hne
    · rw [chunksOf_nil] at hc
      simp at hc
    · rcases le_or_lt l.length K with hle | hgt
      · rw [chunksOf_short (by omega) hne hle] at hc
        simp at hc
      · have hd : l.drop K ≠ [] := by
          intro hcut
          have hdl := congrArg List.length hcut
          simp only [List.length_drop, List.length_nil] at hdl
          omega
        have hrest : chunksOf K (l.drop K) ≠ [] := by
          rw [chunksOf_cons_eq (by omega : K ≠ 0) hd]
          simp
        rw [chunksOf_cons_eq (by omega : K ≠ 0) hne,
          List.dropLast_cons_of_ne_nil hrest] at hc
        rcases List.mem_cons.mp hc with rfl | hc2
        · exact List.length_take_of_le (by omega)
        · exact ih (l.drop K) (by rw [List.length_drop]; omega) c hc2

lemma chunksOf_getLast {α : Type} {K : Nat} (hK : 0 < K) :
    ∀ (l : List α) (c : List α), (chunksOf K l).getLast? = some c →
      c.length = if l.length % K = 0 then K else l.length % K := by
  suffices h : ∀ n (l : List α), l.length ≤ n →
      ∀ c, (chunksOf K l).getLast? = some c →
        c.length = if l.length % K = 0 then K else l.length % K by
    intro l c hc
    exact h l.length l le_rfl c hc
  intro n
  induction n with
  | zero =>
    intro l hl c hc
    rw [List.length_eq_zero.mp (Nat.le_zero.mp hl), chunksOf_nil] at hc
    simp at hc
  | succ n ih =>
    intro l hl c hc
    rcases eq_or_ne l [] with rfl | hne
    · rw [chunksOf_nil] at hc
      simp at hc
    · rcases le_or_lt l.length K with hle | hgt
      · rw [chunksOf_short (by omega) hne hle] at hc
        simp only [List.getLast?_singleton, Option.some.injEq] at hc
        subst hc
        by_cases hm : l.length % K = 0
        · rw [if_pos hm]
          have hdvd : K ∣ l.length := Nat.dvd_of_mod_eq_zero hm
          have := Nat.le_of_dvd (List.length_pos.mpr hne) hdvd
          omega
        · rw [if_neg hm]
          have hlt : l.length < K := by
            rcases Nat.lt_or_ge l.length K with h3 | h3
            · exact h3
            · have hx : l.length = K := by omega
              rw [hx] at hm
              exact absurd (Nat.mod_self K) hm
          exact (Nat.mod_eq_of_lt hlt).symm
      · have hd : l.drop K ≠ [] := by
          intro hcut
          have hdl := congrArg List.length hcut
          simp only [List.length_drop, List.length_nil] at hdl
          omega
        rw [chunksOf_cons_eq (by omega : K ≠ 0) hne,
          chunksOf_cons_eq (by omega : K ≠ 0) hd, List.getLast?_cons_cons,
          ← chunksOf_cons_eq (by omega : K ≠ 0) hd] at hc
        have hrec := ih (l.drop K) (by rw [List.length_drop]; omega) c hc
        rw [List.length_drop] at hrec
        have hmod : (l.length - K) % K = l.length % K := by
          obtain ⟨m, hm⟩ : ∃ m, l.length = m + K := ⟨l.length - K, by omega⟩
          rw [hm, Nat.add_sub_cancel, Nat.add_mod_right]
        rw [hmod] at hrec
        exact hrec

/-! Step equations for the cursor's two extraction operations. -/

lemma next_of_none {α β : Type} (s : FoldChunksSeq α β) (h : s.inner = none) :
    s.next = (none, s) := by
  unfold FoldChunksSeq.next
  rw [h]

lemma next_of_big {α β : Type} (s : FoldChunksSeq α β) (l : List α)
    (h : s.inner = some l) (hlen : s.chunk_size < s.len) :
    s.next = (some ((l.take s.chunk_size).foldl s.fold_op (s.identity ())),
      { s with inner := some (l.drop s.chunk_size),
               len := s.len - s.chunk_size }) := by
  unfold FoldChunksSeq.next
  rw [h]
  simp only [if_pos hlen]

lemma next_of_small {α β : Type} (s : FoldChunksSeq α β) (l : List α)
    (h : s.inner = some l) (hlen : ¬ s.chunk_size < s.len) :
    s.next = (some (l.foldl s.fold_op (s.identity ())),
      { s with inner := none, len := 0 }) := by
  unfold FoldChunksSeq.next
  rw [h]
  simp only [if_neg hlen]

lemma next_back_of_none {α β : Type} (s : FoldChunksSeq α β)
    (h : s.inner = none) : s.next_back = (none, s) := by
  unfold FoldChunksSeq.next_back
  rw [h]

lemma next_back_of_big {α β : Type} (s : FoldChunksSeq α β) (l : List α)
    (h : s.inner = some l) (hlen : s.chunk_size < s.len) :
    s.next_back =
      (some ((l.drop (s.len - backSize s.len s.chunk_size)).foldl s.fold_op
          (s.identity ())),
        { s with inner := some (l.take (s.len - backSize s.len s.chunk_size)),
                 len := s.len - backSize s.len s.chunk_size }) := by
  unfold FoldChunksSeq.next_back backSize
  rw [h]
  simp only [if_pos hlen]

lemma next_back_of_small {α β : Type} (s : FoldChunksSeq α β) (l : List α)
    (h : s.inner = some l) (hlen : ¬ s.chunk_size < s.len) :
    s.next_back = (some (l.foldl s.fold_op (s.identity ())),
      { s with inner := none, len := 0 }) := by
  unfold FoldChunksSeq.next_back
  rw [h]
  simp only [if_neg hlen]

/-! Full traversals of a cursor. -/

lemma runForward_succ_some {α β : Type} (fuel : Nat)
    (s s' : FoldChunksSeq α β) (v : β) (h : s.next = (some v, s')) :
    runForward (fuel + 1) s = v :: runForward fuel s' := by
  simp only [runForward]
  rw [h]

lemma runForward_of_inner_none {α β : Type} (fuel : Nat)
    (s : FoldChunksSeq α β) (h : s.inner = none) : runForward fuel s = [] := by
  cases fuel with
  | zero => rfl
  | succ fuel =>
    unfold runForward
    rw [next_of_none s h]

lemma runBackward_succ_some {α β : Type} (fuel : Nat)
    (s s' : FoldChunksSeq α β) (v : β) (h : s.next_back = (some v, s')) :
    runBackward (fuel + 1) s = v :: runBackward fuel s' := by
  simp only [runBackward]
  rw [h]

lemma runBackward_of_inner_none {α β : Type} (fuel : Nat)
    (s : FoldChunksSeq α β) (h : s.inner = none) : runBackward fuel s = [] := by
  cases fuel with
  | zero => rfl
  | succ fuel =>
    unfold runBackward
    rw [next_back_of_none s h]

/-- Forward traversal of a valid cursor produces exactly the folded chunk
partition of the held elements. -/
lemma runForward_spec {α β : Type} :
    ∀ (fuel : Nat) (s : FoldChunksSeq α β), 0 < s.chunk_size → Valid s →
      s.len < fuel →
      runForward fuel s =
        specOutput s.chunk_size s.identity s.fold_op (contents s) := by
  intro fuel
  induction fuel with
  | zero =>
    intro s _ _ h
    omega
  | succ fuel ih =>
    intro s hK hV hlt
    match hinner : s.inner with
    | none =>
      rw [runForward_of_inner_none _ s hinner]
      simp [contents, hinner, specOutput, chunksOf_nil]
    | some l =>
      obtain ⟨hl, hpos⟩ := hV.1 l hinner
      have hlne : l ≠ [] := by
        intro hc
        rw [hc] at hl
        simp at hl
        omega
      rcases Nat.lt_or_ge s.chunk_size s.len with hbig | hsmall
      · rw [runForward_succ_some fuel s _ _ (next_of_big s l hinner hbig)]
        rw [ih _ (by simpa using hK)
          ⟨fun l' hl' => by
              simp only [Option.some.injEq] at hl'
              subst hl'
              constructor
              · simp [List.length_drop]
                omega
              · simp
                omega,
            fun hc => by simp at hc⟩
          (by simp; omega)]
        simp only [contents, hinner, Option.getD_some]
        unfold specOutput
        rw [chunksOf_cons_eq (by omega : s.chunk_size ≠ 0) hlne, List.map_cons]
        rfl
      · rw [runForward_succ_some fuel s _ _
          (next_of_small s l hinner (by omega))]
        rw [runForward_of_inner_none fuel _ rfl]
        simp only [contents, hinner, Option.getD_some]
        unfold specOutput
        rw [chunksOf_short (by omega : s.chunk_size ≠ 0) hlne (by omega),
          List.map_cons, List.map_nil]
        rfl

/-- Backward traversal of a valid cursor produces the reverse of the folded
chunk partition of the held elements. -/
lemma runBackward_spec {α β : Type} :
    ∀ (fuel : Nat) (s : FoldChunksSeq α β), 0 < s.chunk_size → Valid s →
      s.len < fuel →
      runBackward fuel s =
        (specOutput s.chunk_size s.identity s.fold_op (contents s)).reverse := by
  intro fuel
  induction fuel with
  | zero =>
    intro s _ _ h
    omega
  | succ fuel ih =>
    intro s hK hV hlt
    match hinner : s.inner with
    | none =>
      rw [runBackward_of_inner_none _ s hinner]
      simp [contents, hinner, specOutput, chunksOf_nil]
    | some l =>
      obtain ⟨hl, hpos⟩ := hV.1 l hinner
      have hlne : l ≠ [] := by
        intro hc
        rw [hc] at hl
        simp at hl
        omega
      rcases Nat.lt_or_ge s.chunk_size s.len with hbig | hsmall
      · have hmodlt : s.len % s.chunk_size < s.chunk_size :=
          Nat.mod_lt _ hK
        have hsz : 0 < backSize s.len s.chunk_size ∧
            backSize s.len s.chunk_size ≤ s.chunk_size := by
          unfold backSize
          by_cases hm : s.len % s.chunk_size = 0
          · rw [if_pos hm]
            omega
          · rw [if_neg hm]
            omega
        set size := backSize s.len s.chunk_size with hsize
        have hdvd : s.chunk_size ∣ (s.len - size) := by
          rw [hsize]
          unfold backSize
          by_cases hm : s.len % s.chunk_size = 0
          · rw [if_pos hm]
            exact (Nat.dvd_sub' (Nat.dvd_of_mod_eq_zero hm) dvd_rfl)
          · rw [if_neg hm]
            have hd := Nat.div_add_mod s.len s.chunk_size
            have : s.len - s.len % s.chunk_size =
                s.chunk_size * (s.len / s.chunk_size) := by omega
            rw [this]
            exact Dvd.intro _ rfl
        obtain ⟨j, hj⟩ := hdvd
        have hepos : 0 < s.len - size := by omega
        have hele : s.len - size ≤ l.length := by omega
        rw [runBackward_succ_some fuel s _ _ (next_back_of_big s l hinner hbig)]
        rw [ih _ (by simpa using hK)
          ⟨fun l' hl' => by
              simp only [Option.some.injEq] at hl'
              subst hl'
              constructor
              · simp [List.length_take]
                omega
              · simp
                omega,
            fun hc => by simp at hc⟩
          (by simp; omega)]
        simp only [contents, hinner, Option.getD_some]
        unfold specOutput
        have hsplit := chunksOf_take_drop (α := α) hK j l
        rw [← hj] at hsplit
        have hdropne : l.drop (s.len - size) ≠ [] := by
          intro hc
          have := congrArg List.length hc
          simp only [List.length_drop, List.length_nil] at this
          omega
        have hshort : (l.drop (s.len - size)).length ≤ s.chunk_size := by
          simp only [List.length_drop]
          omega
        rw [hsplit, chunksOf_short (by omega : s.chunk_size ≠ 0) hdropne hshort,
          List.map_append, List.map_cons, List.map_nil, List.reverse_append]
        rfl
      · rw [runBackward_succ_some fuel s _ _
          (next_back_of_small s l hinner (by omega))]
        rw [runBackward_of_inner_none fuel _ rfl]
        simp only [contents, hinner, Option.getD_some]
        unfold specOutput
        rw [chunksOf_short (by omega : s.chunk_size ≠ 0) hlne (by omega),
          List.map_cons, List.map_nil]
        rfl

/-! Split-strategy independence of execution. -/

/-- Splitting at a logical chunk index preserves the chunk partition: the
physical element index is either chunk-aligned or clamps to the whole
list. -/
lemma specOutput_split {α β : Type} {K : Nat} (hK : 0 < K)
    (identity : Unit → β) (fold_op : β → α → β) (l : List α) (i : Nat) :
    specOutput K identity fold_op l =
      specOutput K identity fold_op (l.take (min (i * K) l.length)) ++
        specOutput K identity fold_op (l.drop (min (i * K) l.length)) := by
  unfold specOutput
  rcases le_total (i * K) l.length with h | h
  · rw [min_eq_left h, Nat.mul_comm i K, chunksOf_take_drop hK i l,
      List.map_append]
  · rw [min_eq_right h, List.take_length, List.drop_length, chunksOf_nil]
    simp

/-- Sequential consumption (forward) of a producer yields the folded chunk
partition of its base fragment. -/
lemma into_iter_runForward {α β : Type} (p : FoldChunksProducer α β)
    (hK : 0 < p.chunk_size) (hlen : p.len = p.base.length) :
    runForward (p.len + 1) p.into_iter =
      specOutput p.chunk_size p.identity p.fold_op p.base := by
  by_cases hp : 0 < p.len
  · have hii : p.into_iter.inner = some p.base := by
      simp [FoldChunksProducer.into_iter, hp]
    have hres := runForward_spec (p.len + 1) p.into_iter
      (by simpa [FoldChunksProducer.into_iter] using hK)
      ⟨fun l' hl' => by
          rw [hii] at hl'
          simp only [Option.some.injEq] at hl'
          subst hl'
          exact ⟨by simpa [FoldChunksProducer.into_iter] using hlen,
            by simpa [FoldChunksProducer.into_iter] using hp⟩,
        fun hc => by rw [hii] at hc; simp at hc⟩
      (by simp [FoldChunksProducer.into_iter])
    rw [hres]
    simp only [contents, FoldChunksProducer.into_iter, if_pos hp,
      Option.getD_some]
  · have hp0 : p.len = 0 := by omega
    have hb : p.base = [] := List.length_eq_zero.mp (by omega)
    have hii : p.into_iter.inner = none := by
      simp [FoldChunksProducer.into_iter, hp0]
    rw [runForward_of_inner_none _ _ hii, hb]
    simp [specOutput, chunksOf_nil]

/-- Sequential consumption (backward) of a producer yields the reversed
folded chunk partition of its base fragment. -/
lemma into_iter_runBackward {α β : Type} (p : FoldChunksProducer α β)
    (hK : 0 < p.chunk_size) (hlen : p.len = p.base.length) :
    runBackward (p.len + 1) p.into_iter =
      (specOutput p.chunk_size p.identity p.fold_op p.base).reverse := by
  by_cases hp : 0 < p.len
  · have hii : p.into_iter.inner = some p.base := by
      simp [FoldChunksProducer.into_iter, hp]
    have hres := runBackward_spec (p.len + 1) p.into_iter
      (by simpa [FoldChunksProducer.into_iter] using hK)
      ⟨fun l' hl' => by
          rw [hii] at hl'
          simp only [Option.some.injEq] at hl'
          subst hl'
          exact ⟨by simpa [FoldChunksProducer.into_iter] using hlen,
            by simpa [FoldChunksProducer.into_iter] using hp⟩,
        fun hc => by rw [hii] at hc; simp at hc⟩
      (by simp [FoldChunksProducer.into_iter])
    rw [hres]
    simp only [contents, FoldChunksProducer.into_iter, if_pos hp,
      Option.getD_some]
  · have hp0 : p.len = 0 := by omega
    have hb : p.base = [] := List.length_eq_zero.mp (by omega)
    have hii : p.into_iter.inner = none := by
      simp [FoldChunksProducer.into_iter, hp0]
    rw [runBackward_of_inner_none _ _ hii, hb]
    simp [specOutput, chunksOf_nil]

/-- Execution under any split strategy produces exactly the folded chunk
partition of the base fragment. -/
lemma execute_spec {α β : Type} :
    ∀ (t : SplitTree) (p : FoldChunksProducer α β), 0 < p.chunk_size →
      p.len = p.base.length →
      execute t p = specOutput p.chunk_size p.identity p.fold_op p.base := by
  intro t
  induction t with
  | leaf =>
    intro p hK hlen
    exact into_iter_runForward p hK hlen
  | node i tl tr ihl ihr =>
    intro p hK hlen
    have hmin : min (i * p.chunk_size) p.len ≤ p.base.length := by
      rw [← hlen]
      exact Nat.min_le_right _ _
    have h1 := ihl (p.split_at i).1 hK
      (by
        show min (i * p.chunk_size) p.len =
          (p.base.take (min (i * p.chunk_size) p.len)).length
        rw [List.length_take_of_le hmin])
    have h2 := ihr (p.split_at i).2 hK
      (by
        show p.len - min (i * p.chunk_size) p.len =
          (p.base.drop (min (i * p.chunk_size) p.len)).length
        rw [List.length_drop, hlen])
    show execute tl (p.split_at i).1 ++ execute tr (p.split_at i).2 = _
    rw [h1, h2]
    show specOutput p.chunk_size p.identity p.fold_op
        (p.base.take (min (i * p.chunk_size) p.len)) ++
      specOutput p.chunk_size p.identity p.fold_op
        (p.base.drop (min (i * p.chunk_size) p.len)) = _
    rw [hlen, ← specOutput_split hK p.identity p.fold_op p.base i]

/-- Reverse execution under any split strategy produces exactly the
reverse of the forward output. -/
lemma executeBack_spec {α β : Type} :
    ∀ (t : SplitTree) (p : FoldChunksProducer α β), 0 < p.chunk_size →
      p.len = p.base.length →
      executeBack t p =
        (specOutput p.chunk_size p.identity p.fold_op p.base).reverse := by
  intro t
  induction t with
  | leaf =>
    intro p hK hlen
    exact into_iter_runBackward p hK hlen
  | node i tl tr ihl ihr =>
    intro p hK hlen
    have hmin : min (i * p.chunk_size) p.len ≤ p.base.length := by
      rw [← hlen]
      exact Nat.min_le_right _ _
    have h1 := ihl (p.split_at i).1 hK
      (by
        show min (i * p.chunk_size) p.len =
          (p.base.take (min (i * p.chunk_size) p.len)).length
        rw [List.length_take_of_le hmin])
    have h2 := ihr (p.split_at i).2 hK
      (by
        show p.len - min (i * p.chunk_size) p.len =
          (p.base.drop (min (i * p.chunk_size) p.len)).length
        rw [List.length_drop, hlen])
    show executeBack tr (p.split_at i).2 ++ executeBack tl (p.split_at i).1 = _
    rw [h1, h2]
    show (specOutput p.chunk_size p.identity p.fold_op
        (p.base.drop (min (i * p.chunk_size) p.len))).reverse ++
      (specOutput p.chunk_size p.identity p.fold_op
        (p.base.take (min (i * p.chunk_size) p.len))).reverse = _
    rw [← List.reverse_append, hlen,
      ← specOutput_split hK p.identity p.fold_op p.base i]

/-! Claim theorems. -/

/-- C1: for chunk size K > 0, `FoldChunks::len` is the ceiling ⌈L/K⌉
(both as the rational ceiling and as the least d with L ≤ K·d), and it
equals the number of folded values produced under every split strategy. -/
theorem C1_len_is_ceil_and_output_count {α β : Type} (fc : FoldChunks α β)
    (hK : 0 < fc.chunk_size) :
    (fc.len : ℤ) = ⌈(fc.base.length : ℚ) / (fc.chunk_size : ℚ)⌉ ∧
    (∀ d : Nat, fc.len ≤ d ↔ fc.base.length ≤ fc.chunk_size * d) ∧
    ∀ t : SplitTree, (execute t fc.producer).length = fc.len := by
  refine ⟨dru_eq_rat_ceil hK, fun d => dru_le_iff hK, ?_⟩
  intro t
  have h := execute_spec t fc.producer hK rfl
  rw [h]
  show (specOutput fc.chunk_size fc.identity fc.fold_op fc.base).length = _
  unfold specOutput FoldChunks.len
  rw [List.length_map, chunksOf_length hK]

/-- Witness for C1 on the sample combinator (L = 8, K = 3). -/
theorem C1_witness :
    0 < sampleFC.chunk_size ∧
    ((sampleFC.len : ℤ) =
        ⌈(sampleFC.base.length : ℚ) / (sampleFC.chunk_size : ℚ)⌉ ∧
      (∀ d : Nat, sampleFC.len ≤ d ↔
        sampleFC.base.length ≤ sampleFC.chunk_size * d) ∧
      ∀ t : SplitTree, (execute t sampleFC.producer).length = sampleFC.len) :=
  ⟨by decide, C1_len_is_ceil_and_output_count sampleFC (by decide)⟩

/-- C2: under every split strategy the outputs are exactly the folds of
the contiguous chunk partition: the chunks concatenate back to the input,
all but the last have length K, and the last has length L mod K (or K
when the remainder is zero and the input is non-empty). -/
theorem C2_partition_and_folds {α β : Type} (l : List α) (K : Nat)
    (hK : 0 < K) (identity : Unit → β) (fold_op : β → α → β)
    (t : SplitTree) :
    execute t ⟨K, l.length, identity, fold_op, l⟩ =
      (chunksOf K l).map (foldChunk identity fold_op) ∧
    (chunksOf K l).flatten = l ∧
    (∀ c ∈ (chunksOf K l).dropLast, c.length = K) ∧
    (∀ c, (chunksOf K l).getLast? = some c →
      c.length = if l.length % K = 0 then K else l.length % K) := by
  refine ⟨?_, chunksOf_flatten hK l, chunksOf_dropLast hK l,
    chunksOf_getLast hK l⟩
  exact execute_spec t ⟨K, l.length, identity, fold_op, l⟩ hK rfl

/-- Witness for C2 on [0,1,2,3,4], K = 3, with a concrete split strategy. -/
theorem C2_witness :
    0 < 3 ∧
    (execute (SplitTree.node 1 SplitTree.leaf SplitTree.leaf)
        ⟨3, ([0, 1, 2, 3, 4] : List Nat).length, fun _ => (0 : Nat),
          fun a b => a + b, [0, 1, 2, 3, 4]⟩ =
      (chunksOf 3 [0, 1, 2, 3, 4]).map
        (foldChunk (fun _ => (0 : Nat)) (fun a b => a + b)) ∧
    (chunksOf 3 ([0, 1, 2, 3, 4] : List Nat)).flatten = [0, 1, 2, 3, 4] ∧
    (∀ c ∈ (chunksOf 3 ([0, 1, 2, 3, 4] : List Nat)).dropLast,
      c.length = 3) ∧
    (∀ c, (chunksOf 3 ([0, 1, 2, 3, 4] : List Nat)).getLast? = some c →
      c.length = if ([0, 1, 2, 3, 4] : List Nat).length % 3 = 0 then 3
        else ([0, 1, 2, 3, 4] : List Nat).length % 3)) :=
  ⟨by decide, C2_partition_and_folds [0, 1, 2, 3, 4] 3 (by decide)
    (fun _ => 0) (fun a b => a + b)
    (SplitTree.node 1 SplitTree.leaf SplitTree.leaf)⟩

/-- C5: for every input, chunk size K > 0 and split strategy, the forward
output sequence is the reverse of the backward output sequence. -/
theorem C5_forward_is_reverse_of_backward {α β : Type} (l : List α)
    (K : Nat) (hK : 0 < K) (identity : Unit → β) (fold_op : β → α → β)
    (t : SplitTree) :
    execute t ⟨K, l.length, identity, fold_op, l⟩ =
      (executeBack t ⟨K, l.length, identity, fold_op, l⟩).reverse := by
  rw [execute_spec t ⟨K, l.length, identity, fold_op, l⟩ hK rfl,
    executeBack_spec t ⟨K, l.length, identity, fold_op, l⟩ hK rfl,
    List.reverse_reverse]

/-- Witness for C5 on [0,1,2,3,4], K = 3, with a concrete split strategy. -/
theorem C5_witness :
    0 < 3 ∧
    execute (SplitTree.node 1 SplitTree.leaf SplitTree.leaf)
        ⟨3, ([0, 1, 2, 3, 4] : List Nat).length, fun _ => (0 : Nat),
          fun a b => a + b, [0, 1, 2, 3, 4]⟩ =
      (executeBack (SplitTree.node 1 SplitTree.leaf SplitTree.leaf)
        ⟨3, ([0, 1, 2, 3, 4] : List Nat).length, fun _ => (0 : Nat),
          fun a b => a + b, [0, 1, 2, 3, 4]⟩).reverse :=
  ⟨by decide, C5_forward_is_reverse_of_backward [0, 1, 2, 3, 4] 3
    (by decide) (fun _ => 0) (fun a b => a + b)
    (SplitTree.node 1 SplitTree.leaf SplitTree.leaf)⟩

/-- C6: splitting at logical chunk index i computes the physical element
index e = min(i·K, remaining), splits the base there, hands e elements to
the left producer and remaining − e to the right, both keeping the same
chunk size and the same identity and fold references; the two counts add
back to the original. -/
theorem C6_split_at_boundary {α β : Type} (p : FoldChunksProducer α β)
    (i : Nat) :
    (p.split_at i).1.len = min (i * p.chunk_size) p.len ∧
    (p.split_at i).2.len = p.len - min (i * p.chunk_size) p.len ∧
    (p.split_at i).1.base = p.base.take (min (i * p.chunk_size) p.len) ∧
    (p.split_at i).2.base = p.base.drop (min (i * p.chunk_size) p.len) ∧
    (p.split_at i).1.chunk_size = p.chunk_size ∧
    (p.split_at i).2.chunk_size = p.chunk_size ∧
    (p.split_at i).1.identity = p.identity ∧
    (p.split_at i).2.identity = p.identity ∧
    (p.split_at i).1.fold_op = p.fold_op ∧
    (p.split_at i).2.fold_op = p.fold_op ∧
    (p.split_at i).1.len + (p.split_at i).2.len = p.len := by
  refine ⟨rfl, rfl, rfl, rfl, rfl, rfl, rfl, rfl, rfl, rfl, ?_⟩
  show min (i * p.chunk_size) p.len +
    (p.len - min (i * p.chunk_size) p.len) = p.len
  have := Nat.min_le_right (i * p.chunk_size) p.len
  omega

/-- C7: the producer's minimum preferred granularity is the ceiling
⌈m/K⌉ (least d with m ≤ K·d) and its maximum preferred granularity is
the floor M/K (K·(M/K) ≤ M < K·(M/K + 1), never rounded up). -/
theorem C7_granularity {α β : Type} (p : FoldChunksProducer α β)
    (m M : Nat) (hK : 0 < p.chunk_size) :
    (∀ d : Nat, p.min_len m ≤ d ↔ m ≤ p.chunk_size * d) ∧
    p.max_len M * p.chunk_size ≤ M ∧
    M < (p.max_len M + 1) * p.chunk_size := by
  refine ⟨fun d => dru_le_iff hK, Nat.div_mul_le_self M p.chunk_size, ?_⟩
  have hd := Nat.div_add_mod M p.chunk_size
  have hr : M % p.chunk_size < p.chunk_size := Nat.mod_lt _ hK
  have hexp : (M / p.chunk_size + 1) * p.chunk_size =
      p.chunk_size * (M / p.chunk_size) + p.chunk_size := by ring
  show M < (M / p.chunk_size + 1) * p.chunk_size
  omega

/-- Witness for C7 on the sample producer with base granularities 5, 7. -/
theorem C7_witness :
    0 < sampleProducer.chunk_size ∧
    ((∀ d : Nat, sampleProducer.min_len 5 ≤ d ↔
        5 ≤ sampleProducer.chunk_size * d) ∧
      sampleProducer.max_len 7 * sampleProducer.chunk_size ≤ 7 ∧
      7 < (sampleProducer.max_len 7 + 1) * sampleProducer.chunk_size) :=
  ⟨by decide, C7_granularity sampleProducer 5 7 (by decide)⟩

/-- C8: executing the combinator with chunk size zero on a non-empty
input fails with an error naming the chunk_size parameter, uniformly in
the identity factory and fold function (so before either could have been
invoked). -/
theorem C8_zero_chunk_size_fails {α β : Type} (l : List α) (hl : l ≠ [])
    (identity : Unit → β) (fold_op : β → α → β) :
    fold_chunks l 0 identity fold_op =
      Except.error "chunk_size must not be zero" := by
  unfold fold_chunks
  rfl

/-- Witness for C8 on the input [1, 2, 3]. -/
theorem C8_witness :
    ([1, 2, 3] : List Nat) ≠ [] ∧
    fold_chunks ([1, 2, 3] : List Nat) 0 (fun _ => (0 : Nat))
        (fun a b => a + b) =
      Except.error "chunk_size must not be zero" :=
  ⟨by decide, C8_zero_chunk_size_fails [1, 2, 3] (by decide)
    (fun _ => 0) (fun a b => a + b)⟩

/-- C9: for K > 0 an empty input yields an empty output with no failure,
uniformly in the identity factory and fold function; a producer whose
remaining count is 0 converts to a cursor with no base producer, and that
cursor yields nothing. -/
theorem C9_empty_input {α β : Type} (K : Nat) (hK : 0 < K)
    (identity : Unit → β) (fold_op : β → α → β) :
    fold_chunks ([] : List α) K identity fold_op = Except.ok [] ∧
    ∀ p : FoldChunksProducer α β, p.len = 0 →
      p.into_iter.inner = none ∧
      ∀ fuel, runForward fuel p.into_iter = [] := by
  constructor
  · unfold fold_chunks
    rw [if_neg (by omega)]
    simp [specOutput, chunksOf_nil]
  · intro p hp
    have hii : p.into_iter.inner = none := by
      simp [FoldChunksProducer.into_iter, hp]
    exact ⟨hii, fun fuel => runForward_of_inner_none fuel _ hii⟩

/-- Witness for C9 with K = 2 over Nat inputs and outputs. -/
theorem C9_witness :
    0 < 2 ∧
    (fold_chunks ([] : List Nat) 2 (fun _ => (0 : Nat)) (fun a b => a + b) =
        Except.ok [] ∧
      ∀ p : FoldChunksProducer Nat Nat, p.len = 0 →
        p.into_iter.inner = none ∧
        ∀ fuel, runForward fuel p.into_iter = []) :=
  ⟨by decide, C9_empty_input 2 (by decide) (fun _ => 0) (fun a b => a + b)⟩

/-- C3: forward extraction: an exhausted cursor signals end-of-sequence;
with more than chunk_size elements remaining the fragment is split at
element index chunk_size, the left piece folded forward from a fresh
seed, the right piece retained, and remaining drops by chunk_size; with
at most chunk_size remaining the whole fragment is folded and the cursor
becomes exhausted with remaining 0. -/
theorem C3_forward_extraction {α β : Type} (s : FoldChunksSeq α β) :
    (s.inner = none → s.next = (none, s)) ∧
    (∀ l : List α, s.inner = some l → s.chunk_size < s.len →
      s.next = (some ((l.take s.chunk_size).foldl s.fold_op (s.identity ())),
        { s with inner := some (l.drop s.chunk_size),
                 len := s.len - s.chunk_size })) ∧
    (∀ l : List α, s.inner = some l → s.len ≤ s.chunk_size →
      s.next = (some (l.foldl s.fold_op (s.identity ())),
        { s with inner := none, len := 0 })) :=
  ⟨fun h => next_of_none s h,
    fun l h hl => next_of_big s l h hl,
    fun l h hl => next_of_small s l h (by omega)⟩

/-- Witness for C3 on the sample cursor (5 elements, chunk size 3). -/
theorem C3_witness :
    sampleSeq.inner = some [0, 1, 2, 3, 4] ∧
    sampleSeq.chunk_size < sampleSeq.len ∧
    sampleSeq.next =
      (some ((([0, 1, 2, 3, 4] : List Nat).take sampleSeq.chunk_size).foldl
          sampleSeq.fold_op (sampleSeq.identity ())),
        { sampleSeq with
            inner := some (([0, 1, 2, 3, 4] : List Nat).drop
              sampleSeq.chunk_size),
            len := sampleSeq.len - sampleSeq.chunk_size }) :=
  ⟨rfl, by decide,
    (C3_forward_extraction sampleSeq).2.1 [0, 1, 2, 3, 4] rfl (by decide)⟩

/-- C4: the first backward extraction emits the rightmost chunk, sized
remaining mod chunk_size (or a full chunk_size when that remainder is
zero and elements remain); it is exactly the last chunk of the forward
partition, and the remaining count left behind is a multiple of
chunk_size, so subsequent backward extractions emit full chunks. -/
theorem C4_backward_first_chunk {α β : Type} (s : FoldChunksSeq α β)
    (l : List α) (hK : 0 < s.chunk_size) (h : s.inner = some l)
    (hv : s.len = l.length) (hpos : 0 < s.len) :
    (s.next_back).1 =
      some ((l.drop (s.len - backSize s.len s.chunk_size)).foldl s.fold_op
        (s.identity ())) ∧
    (l.drop (s.len - backSize s.len s.chunk_size)).length =
      backSize s.len s.chunk_size ∧
    backSize s.len s.chunk_size =
      (if s.len % s.chunk_size = 0 then s.chunk_size
        else s.len % s.chunk_size) ∧
    (chunksOf s.chunk_size l).getLast? =
      some (l.drop (s.len - backSize s.len s.chunk_size)) ∧
    s.chunk_size ∣ (s.next_back).2.len := by
  have hlne : l ≠ [] := by
    intro hc
    rw [hc] at hv
    simp at hv
    omega
  rcases Nat.lt_or_ge s.chunk_size s.len with hbig | hsmall
  · have hmodlt : s.len % s.chunk_size < s.chunk_size := Nat.mod_lt _ hK
    have hsz : 0 < backSize s.len s.chunk_size ∧
        backSize s.len s.chunk_size ≤ s.chunk_size := by
      unfold backSize
      by_cases hm : s.len % s.chunk_size = 0
      · rw [if_pos hm]
        omega
      · rw [if_neg hm]
        omega
    have hdvd : s.chunk_size ∣ (s.len - backSize s.len s.chunk_size) := by
      unfold backSize
      by_cases hm : s.len % s.chunk_size = 0
      · rw [if_pos hm]
        exact Nat.dvd_sub' (Nat.dvd_of_mod_eq_zero hm) dvd_rfl
      · rw [if_neg hm]
        have hd := Nat.div_add_mod s.len s.chunk_size
        have hx : s.len - s.len % s.chunk_size =
            s.chunk_size * (s.len / s.chunk_size) := by omega
        rw [hx]
        exact Dvd.intro _ rfl
    obtain ⟨j, hj⟩ := hdvd
    rw [next_back_of_big s l h hbig]
    refine ⟨rfl, ?_, rfl, ?_, ?_⟩
    · rw [List.length_drop]
      omega
    · have hsplit := chunksOf_take_drop (α := α) hK j l
      rw [← hj] at hsplit
      have hdropne : l.drop (s.len - backSize s.len s.chunk_size) ≠ [] := by
        intro hc
        have hlen := congrArg List.length hc
        simp only [List.length_drop, List.length_nil] at hlen
        omega
      have hshort : (l.drop (s.len - backSize s.len s.chunk_size)).length ≤
          s.chunk_size := by
        rw [List.length_drop]
        omega
      rw [hsplit, chunksOf_short (by omega) hdropne hshort,
        List.getLast?_concat]
    · show s.chunk_size ∣ s.len - backSize s.len s.chunk_size
      rw [hj]
      exact Dvd.intro _ rfl
  · have hsz : backSize s.len s.chunk_size = s.len := by
      unfold backSize
      by_cases hm : s.len % s.chunk_size = 0
      · rw [if_pos hm]
        have hdvd : s.chunk_size ∣ s.len := Nat.dvd_of_mod_eq_zero hm
        have := Nat.le_of_dvd hpos hdvd
        omega
      · rw [if_neg hm]
        have hlt : s.len < s.chunk_size := by
          rcases Nat.lt_or_ge s.len s.chunk_size with h3 | h3
          · exact h3
          · have hx : s.len = s.chunk_size := by omega
            rw [hx] at hm
            exact absurd (Nat.mod_self _) hm
        exact Nat.mod_eq_of_lt hlt
    have he0 : s.len - backSize s.len s.chunk_size = 0 := by omega
    rw [next_back_of_small s l h (by omega), he0, List.drop_zero]
    refine ⟨rfl, by omega, rfl, ?_, ?_⟩
    · rw [chunksOf_short (by omega) hlne (by omega)]
      rfl
    · show s.chunk_size ∣ 0
      exact dvd_zero _

/-- Witness for C4 on the sample cursor (5 elements, chunk size 3): the
first backward extraction emits the 2-element chunk [3, 4]. -/
theorem C4_witness :
    0 < sampleSeq.chunk_size ∧ sampleSeq.inner = some [0, 1, 2, 3, 4] ∧
    sampleSeq.len = ([0, 1, 2, 3, 4] : List Nat).length ∧
    0 < sampleSeq.len ∧
    ((sampleSeq.next_back).1 =
      some ((([0, 1, 2, 3, 4] : List Nat).drop
          (sampleSeq.len - backSize sampleSeq.len sampleSeq.chunk_size)).foldl
        sampleSeq.fold_op (sampleSeq.identity ())) ∧
    (([0, 1, 2, 3, 4] : List Nat).drop
        (sampleSeq.len - backSize sampleSeq.len sampleSeq.chunk_size)).length =
      backSize sampleSeq.len sampleSeq.chunk_size ∧
    backSize sampleSeq.len sampleSeq.chunk_size =
      (if sampleSeq.len % sampleSeq.chunk_size = 0 then sampleSeq.chunk_size
        else sampleSeq.len % sampleSeq.chunk_size) ∧
    (chunksOf sampleSeq.chunk_size [0, 1, 2, 3, 4]).getLast? =
      some (([0, 1, 2, 3, 4] : List Nat).drop
        (sampleSeq.len - backSize sampleSeq.len sampleSeq.chunk_size)) ∧
    sampleSeq.chunk_size ∣ (sampleSeq.next_back).2.len) :=
  ⟨by decide, rfl, by decide, by decide,
    C4_backward_first_chunk sampleSeq [0, 1, 2, 3, 4] (by decide) rfl
      (by decide) (by decide)⟩

/-- C10: the invariant "a base producer is held iff remaining > 0" is
established by the producer-to-cursor conversion and preserved by both
extraction operations; under it the remaining > 0 condition asserted in
the last-chunk branches holds whenever a fragment is held, and every
successful extraction from either end decrements the reported exact
length ⌈remaining/chunk_size⌉ by exactly one. -/
theorem C10_invariant_preservation {α β : Type} (s : FoldChunksSeq α β)
    (hK : 0 < s.chunk_size) (hInv : s.inner.isSome = true ↔ 0 < s.len) :
    (∀ p : FoldChunksProducer α β,
      p.into_iter.inner.isSome = true ↔ 0 < p.into_iter.len) ∧
    ((s.next).2.inner.isSome = true ↔ 0 < (s.next).2.len) ∧
    ((s.next_back).2.inner.isSome = true ↔ 0 < (s.next_back).2.len) ∧
    (s.inner.isSome = true → 0 < s.len) ∧
    ((s.next).1.isSome = true →
      0 < s.seqLen ∧ (s.next).2.seqLen = s.seqLen - 1) ∧
    ((s.next_back).1.isSome = true →
      0 < s.seqLen ∧ (s.next_back).2.seqLen = s.seqLen - 1) := by
  have hestablish : ∀ p : FoldChunksProducer α β,
      p.into_iter.inner.isSome = true ↔ 0 < p.into_iter.len := by
    intro p
    show (if 0 < p.len then some p.base else none).isSome = true ↔ 0 < p.len
    by_cases hp : 0 < p.len
    · simp [hp]
    · simp [hp]
  rcases hoinner : s.inner with _ | l
  · rw [hoinner] at hInv
    simp only [Option.isSome_none, Bool.false_eq_true, false_iff] at hInv
    have hlen0 : s.len = 0 := by omega
    have hn := next_of_none s hoinner
    have hnb := next_back_of_none s hoinner
    refine ⟨hestablish, ?_, ?_, ?_, ?_, ?_⟩
    · rw [hn, hoinner]
      simp
      omega
    · rw [hnb, hoinner]
      simp
      omega
    · simp
    · rw [hn]
      simp
    · rw [hnb]
      simp
  · rw [hoinner] at hInv
    simp only [Option.isSome_some, true_iff] at hInv
    rcases Nat.lt_or_ge s.chunk_size s.len with hbig | hsmall
    · have hmodlt : s.len % s.chunk_size < s.chunk_size := Nat.mod_lt _ hK
      have hsz : 0 < backSize s.len s.chunk_size ∧
          backSize s.len s.chunk_size ≤ s.chunk_size := by
        unfold backSize
        by_cases hm : s.len % s.chunk_size = 0
        · rw [if_pos hm]
          omega
        · rw [if_neg hm]
          omega
      have hn := next_of_big s l hoinner hbig
      have hnb := next_back_of_big s l hoinner hbig
      refine ⟨hestablish, ?_, ?_, fun _ => hInv, ?_, ?_⟩
      · rw [hn]
        simp
        omega
      · rw [hnb]
        simp
        omega
      · intro _
        refine ⟨dru_pos hK hInv, ?_⟩
        rw [hn]
        show div_round_up (s.len - s.chunk_size) s.chunk_size =
          div_round_up s.len s.chunk_size - 1
        exact dru_sub_chunk hK (le_of_lt hbig)
      · intro _
        refine ⟨dru_pos hK hInv, ?_⟩
        rw [hnb]
        show div_round_up (s.len - backSize s.len s.chunk_size)
            s.chunk_size = div_round_up s.len s.chunk_size - 1
        unfold backSize
        by_cases hm : s.len % s.chunk_size = 0
        · rw [if_pos hm]
          exact dru_sub_chunk hK (le_of_lt hbig)
        · rw [if_neg hm]
          exact dru_sub_mod hK hm
    · have hn := next_of_small s l hoinner (by omega)
      have hnb := next_back_of_small s l hoinner (by omega)
      refine ⟨hestablish, ?_, ?_, fun _ => hInv, ?_, ?_⟩
      · rw [hn]
        simp
      · rw [hnb]
        simp
      · intro _
        refine ⟨dru_pos hK hInv, ?_⟩
        rw [hn]
        show div_round_up 0 s.chunk_size =
          div_round_up s.len s.chunk_size - 1
        rw [dru_zero, dru_eq_one hK hInv hsmall]
      · intro _
        refine ⟨dru_pos hK hInv, ?_⟩
        rw [hnb]
        show div_round_up 0 s.chunk_size =
          div_round_up s.len s.chunk_size - 1
        rw [dru_zero, dru_eq_one hK hInv hsmall]

/-- Witness for C10 on the sample cursor (5 elements, chunk size 3). -/
theorem C10_witness :
    (0 < sampleSeq.chunk_size ∧
      (sampleSeq.inner.isSome = true ↔ 0 < sampleSeq.len)) ∧
    ((∀ p : FoldChunksProducer Nat Nat,
        p.into_iter.inner.isSome = true ↔ 0 < p.into_iter.len) ∧
      ((sampleSeq.next).2.inner.isSome = true ↔
        0 < (sampleSeq.next).2.len) ∧
      ((sampleSeq.next_back).2.inner.isSome = true ↔
        0 < (sampleSeq.next_back).2.len) ∧
      (sampleSeq.inner.isSome = true → 0 < sampleSeq.len) ∧
      ((sampleSeq.next).1.isSome = true →
        0 < sampleSeq.seqLen ∧
          (sampleSeq.next).2.seqLen = sampleSeq.seqLen - 1) ∧
      ((sampleSeq.next_back).1.isSome = true →
        0 < sampleSeq.seqLen ∧
          (sampleSeq.next_back).2.seqLen = sampleSeq.seqLen - 1)) :=
  ⟨⟨by decide, by decide⟩,
    C10_invariant_preservation sampleSeq (by decide) (by decide)⟩

end FoldChunksModel
